import Mathlib

/-!
Verification of the retrieval / ranking / sanitizing core of `app.py`
(a local RAG service answering Uzbek legal-education questions).

The embedding is shallow and follows the Python source line by line:

* metadata records (`METAS` entries, JSON objects) become the structure
  `Meta`; the Python `m.get(key) or ""` defaults are modelled by plain
  `String` fields where the absent/None case is the empty string;
* similarity scores are modelled as rationals (`ℚ`); the raw similarity
  vector `sims = EMB @ qv` of `cosine_search` is passed in as a list of
  scores, one per metadata record (the float dot product itself is treated
  separately, over `ℝ`, in the `rawDot`/`l2n` development below);
* `np.argsort(-sims)` followed by indexing is modelled by sorting the
  (score, record) pairs descending by score.  NumPy`s default argsort is
  not stable and leaves tie order unspecified; every property proved here
  is independent of tie order;
* Python `list.sort(key=lambda x: -x[0])` (stable, descending) is modelled
  with `List.insertionSort` on the decidable total relation `scoreGe`;
* the `/ask` handler becomes `ask`, a function of the outcome of the
  embedding call and of the chat-completion call (each an `Except`,
  since both are network calls that can raise); the returned `AskTrace`
  records the produced response plus which model string was computed by
  the escalation decision (line 246) and which one was actually passed to
  the completion call (line 251).
-/

/-- One metadata record of `meta.jsonl` (`METAS[i]`).  The Python code reads
the fields with `m.get(k, "")` / `m.get(k) or ""`, so a missing field is the
empty string here. -/
structure Meta where
  doc_url : String := ""
  doc_title : String := ""
  chunk_text : String := ""
  source_type : String := ""
deriving DecidableEq, Repr

/-- Constant `MIN_SIM` (env default `0.22`, line 21). -/
def MIN_SIM : ℚ := 22 / 100

/-- Constant `TOP_K` (env default `8`, line 20). -/
def TOP_K : ℕ := 8

/-- Constant `ESCALATE_SIM` (env default `0.30`, line 23). -/
def ESCALATE_SIM : ℚ := 30 / 100

/-- Constant `OPENAI_CHAT_MODEL` (env default `"gpt-4o-mini"`, line 17). -/
def OPENAI_CHAT_MODEL : String := "gpt-4o-mini"

/-- Constant `CHAT_FALLBACK` (env default `"gpt-4o"`, line 24). -/
def CHAT_FALLBACK : String := "gpt-4o"

/-- Python `str.lower`, restricted to the alphabets this program actually
manipulates: ASCII `A`–`Z` and Cyrillic `А`–`Я` / `Ё`.  All other characters
(including the Latin apostrophes and the already-lowercase keyword text) are
fixed points of `str.lower`. -/
def pyLowerChar (c : Char) : Char :=
  if 65 ≤ c.toNat ∧ c.toNat ≤ 90 then Char.ofNat (c.toNat + 32)
  else if 1040 ≤ c.toNat ∧ c.toNat ≤ 1071 then Char.ofNat (c.toNat + 32)
  else if c.toNat = 1025 then Char.ofNat 1105
  else c

/-- Python `s.lower()` on a whole string. -/
def pyLowerStr (s : String) : String :=
  String.mk (s.toList.map pyLowerChar)

/-- Predicate `startsWithChars needle hay`: `needle` is a prefix of `hay`. -/
def startsWithChars : List Char → List Char → Bool
  | [], _ => true
  | _ :: _, [] => false
  | a :: as, b :: bs => a = b && startsWithChars as bs

/-- Predicate `infixChars needle hay`: `needle` occurs contiguously in `hay`. -/
def infixChars (needle : List Char) : List Char → Bool
  | [] => needle.isEmpty
  | c :: rest => startsWithChars needle (c :: rest) || infixChars needle rest

/-- Python substring test `needle in hay` (character-wise containment). -/
def substrOf (needle hay : String) : Bool :=
  infixChars needle.toList hay.toList

/-- The list `EDU_KEYWORDS` (lines 56–62), verbatim.  Note that `"TTJ"`, `"DS"` and
`"DTM"` are written in upper case in the source. -/
def EDU_KEYWORDS : List String :=
  ["ta\x27lim", "ta’lim", "oliy ta\x27lim", "maktab", "kollej", "litsey",
   "universitet", "abituriyent",
   "davlat ta\x27lim standarti", "akkreditatsiya", "o\x27quv reja", "qabul",
   "grant", "stipendiya",
   "talaba", "o‘quvchi", "o’quvchi", "o‘qituvchi", "pedagog",
   "malaka oshirish",
   "TTJ", "yotoqxona", "DS", "DTM", "my.maktab.uz", "talablar", "litsenziya",
   "litsenziyalash",
   "образование", "школа", "колледж", "лицей", "университет", "абитуриент",
   "приём", "аккредитация"]

/-- Function `has_edu_kw` (lines 64–66): lower-case the input, then test whether any
keyword is a substring.  The keywords themselves are not lower-cased. -/
def has_edu_kw (s : String) : Bool :=
  let low := pyLowerStr s
  EDU_KEYWORDS.any (fun k => substrOf k low)

/-- The test `u.startswith(("https://lex.uz", "http://lex.uz"))` (lines 84 and 145). -/
def isLexUrl (u : String) : Bool :=
  startsWithChars "https://lex.uz".toList u.toList
    || startsWithChars "http://lex.uz".toList u.toList

/-- The additive boost of `cosine_search` (lines 83–89): +0.08 for a lex.uz
URL, +0.05 for an education keyword in chunk text or title, +0.03 for a
curated source type. -/
def boost (m : Meta) : ℚ :=
  (if isLexUrl m.doc_url then 8 / 100 else 0)
    + (if has_edu_kw m.chunk_text || has_edu_kw m.doc_title then 5 / 100 else 0)
    + (if m.source_type = "parsed_lex" ∨ m.source_type = "jsonl" then 3 / 100 else 0)

/-- Descending order on (score, record) pairs; the relation used for both
sorts of `cosine_search` (`argsort(-sims)` at line 76 and
`results.sort(key=lambda x: -x[0])` at line 91). -/
def scoreGe (a b : ℚ × Meta) : Prop := b.1 ≤ a.1

instance : DecidableRel scoreGe := fun a b => inferInstanceAs (Decidable (b.1 ≤ a.1))

instance : IsTotal (ℚ × Meta) scoreGe := ⟨fun a b => le_total b.1 a.1⟩

instance : IsTrans (ℚ × Meta) scoreGe := ⟨fun _ _ _ h h2 => le_trans h2 h⟩

/-- The deduplication key `(m.get("doc_url",""), m.get("doc_title",""))`
(line 94). -/
def entryKey (e : ℚ × Meta) : String × String := (e.2.doc_url, e.2.doc_title)

/-- The over-fetched candidate pool: raw (similarity, record) pairs taken in
descending raw-similarity order, sliced to `max(top_n*4, top_n)`
(lines 75–78). -/
def poolOf (sims : List ℚ) (metas : List Meta) (top_n : ℕ) : List (ℚ × Meta) :=
  (List.insertionSort scoreGe (sims.zip metas)).take (max (top_n * 4) top_n)

/-- The thresholded, boosted, re-sorted result list (`results` after
line 91): candidates below `MIN_SIM` are dropped, the rest get
`sim + boost`, and the list is re-sorted descending by adjusted score. -/
def rankedPool (sims : List ℚ) (metas : List Meta) (top_n : ℕ) : List (ℚ × Meta) :=
  List.insertionSort scoreGe
    ((poolOf sims metas top_n).filterMap
      (fun e => if e.1 < MIN_SIM then none else some (e.1 + boost e.2, e.2)))

/-- The dedup-and-cap loop of `cosine_search` (lines 92–100): skip entries
whose key was already seen, append the others, and break once `top_n`
entries have been collected (the length check runs after the append, exactly
as in the Python `if len(out) >= top_n: break`). -/
def dedupTake (top_n : ℕ) : List (String × String) → ℕ → List (ℚ × Meta) → List (ℚ × Meta)
  | _, _, [] => []
  | seen, cnt, e :: rest =>
    if entryKey e ∈ seen then dedupTake top_n seen cnt rest
    else if top_n ≤ cnt + 1 then [e]
    else e :: dedupTake top_n (entryKey e :: seen) (cnt + 1) rest

/-- Function `cosine_search` (lines 73–101), as a function of the raw similarity
vector (one score per record, the result of `EMB @ qv`). -/
def cosine_search (sims : List ℚ) (metas : List Meta) (top_n : ℕ) : List (ℚ × Meta) :=
  dedupTake top_n [] 0 (rankedPool sims metas top_n)

/-- A returned source link `{"title": u, "url": u}` (line 150). -/
structure Citation where
  title : String
  url : String
deriving DecidableEq, Repr

/-- Python whitespace (`str.strip`, regex `\s`), restricted to the ASCII
whitespace characters; the strings this program strips are ASCII/Latin. -/
def isPySpace (c : Char) : Bool :=
  c = ' ' || c = '\t' || c = '\n' || c = '\x0b' || c = '\x0c' || c = '\r'

/-- Python `str.strip()` on a character list. -/
def pyStrip (l : List Char) : List Char :=
  ((l.dropWhile isPySpace).reverse.dropWhile isPySpace).reverse

/-- Python `str.strip()` on a string. -/
def pyStripStr (s : String) : String :=
  String.mk (pyStrip s.toList)

/-- The loop body of `only_lex_sources` (lines 138–153): strip the URL, skip
empty and non-lex.uz URLs, deduplicate by exact URL, and break once
`max_links` links have been collected (checked after the append). -/
def lexSourcesLoop (max_links : ℕ) : List String → ℕ → List Meta → List Citation
  | _, _, [] => []
  | seen, cnt, m :: rest =>
    let u := pyStripStr m.doc_url
    if u = "" then lexSourcesLoop max_links seen cnt rest
    else if ¬ isLexUrl u then lexSourcesLoop max_links seen cnt rest
    else if u ∈ seen then lexSourcesLoop max_links seen cnt rest
    else if max_links ≤ cnt + 1 then [⟨u, u⟩]
    else ⟨u, u⟩ :: lexSourcesLoop max_links (u :: seen) (cnt + 1) rest

/-- Function `only_lex_sources` (lines 138–153). -/
def only_lex_sources (picks : List Meta) (max_links : ℕ) : List Citation :=
  lexSourcesLoop max_links [] 0 picks

/-- Case-insensitive (lower-cased pattern) prefix match: `pat` is matched
character by character against the lower-cased input.  This models Python
regex literal text under `re.IGNORECASE` for the all-lower-case pattern
fragments of `strip_unwanted`. -/
def ciMatches : List Char → List Char → Bool
  | [], _ => true
  | _ :: _, [] => false
  | p :: ps, c :: cs => pyLowerChar c = p && ciMatches ps cs

/-- After `manbalar` in the second pattern: `\s*:` — zero or more whitespace
characters followed by a colon.  Since `:` is not whitespace, the regex with
backtracking matches exactly when the first non-whitespace character is a
colon. -/
def colonAfterSpaces (l : List Char) : Bool :=
  match l.dropWhile isPySpace with
  | c :: _ => c = ':'
  | [] => false

/-- The literal tail of pattern 1 after the optional apostrophe:
`yicha:`. -/
def yichaChars : List Char := ['y', 'i', 'c', 'h', 'a', ':']

/-- The character class `['’`]` of pattern 1 (line 130): ASCII apostrophe,
right single quotation mark, backtick. -/
def isApos (c : Char) : Bool :=
  c = '\x27' || c = '’' || c = '\x60'

/-- The optional apostrophe-class character followed by `yicha:` (the tail
of pattern 1).  The optional class character is deterministic because `y`
is not in the class. -/
def afterLabel1 : List Char → Bool
  | [] => false
  | c :: r => if isApos c then ciMatches yichaChars r else ciMatches yichaChars (c :: r)

/-- Pattern 1 body (after the leading newlines):
`manbalar bo['’`]?yicha:` matched case-insensitively. -/
def matchLabel1 (cs : List Char) : Bool :=
  ciMatches ['m', 'a', 'n', 'b', 'a', 'l', 'a', 'r', ' ', 'b', 'o'] cs
    && afterLabel1 (cs.drop 11)

/-- Pattern 2 body (after the leading newlines): `manbalar\s*:` matched
case-insensitively. -/
def matchLabel2 (cs : List Char) : Bool :=
  ciMatches ['m', 'a', 'n', 'b', 'a', 'l', 'a', 'r'] cs && colonAfterSpaces (cs.drop 8)

/-- A regex `\n+<label>.*\Z` (with `re.DOTALL`) matches at a position iff
that position holds a newline and the label matches after the maximal run
of newlines (no label starts with a newline, so `\n+` backtracking cannot
stop earlier); `.*\Z` then always matches the rest. -/
def patMatchAt (label : List Char → Bool) : List Char → Bool
  | [] => false
  | c :: rest => c = '\n' && label (rest.dropWhile (fun d => d = '\n'))

/-- Model of `re.sub(p, "", out)` for a pattern anchored to the end of the string:
cut the text at the leftmost position where the pattern matches. -/
def removeTail (p : List Char → Bool) : List Char → List Char
  | [] => []
  | c :: rest => if p (c :: rest) then [] else c :: removeTail p rest

/-- Some position of the list matches `p` (the pattern occurs in the
text). -/
def anyMatch (p : List Char → Bool) : List Char → Bool
  | [] => false
  | c :: rest => p (c :: rest) || anyMatch p rest

/-- Function `strip_unwanted` (lines 128–136): delete from the leftmost match of
pattern 1, then from the leftmost match of pattern 2, then `strip()`. -/
def strip_unwanted (s : String) : String :=
  String.mk (pyStrip
    (removeTail (patMatchAt matchLabel2)
      (removeTail (patMatchAt matchLabel1) s.toList)))

/-- The input text contains an occurrence of one of the two recognized
"sources" heading patterns. -/
def hasPat (s : String) : Bool :=
  anyMatch (patMatchAt matchLabel1) s.toList
    || anyMatch (patMatchAt matchLabel2) s.toList

/-- The fixed fallback answer returned when the ranked list is empty
(line 241). -/
def FALLBACK_MSG : String := "Chummadim. Savolni aniqroq yozib ko\x27ring."

/-- What the `/ask` handler produces, as seen by FastAPI. -/
inductive Response where
  /-- A JSON body `{"answer": ..., "sources": ...}`. -/
  | ok : String → List Citation → Response
  /-- Via `raise HTTPException(status, detail)`. -/
  | httpError : ℕ → String → Response
  /-- An exception that escapes the handler unwrapped (FastAPI turns it
  into a generic 500, not into the HTTPException above). -/
  | unhandled : String → Response
deriving DecidableEq, Repr

/-- The escalation decision of line 246:
`OPENAI_CHAT_MODEL if best_sim >= ESCALATE_SIM else CHAT_FALLBACK`. -/
def model_to_use (best_sim : ℚ) : String :=
  if ESCALATE_SIM ≤ best_sim then OPENAI_CHAT_MODEL else CHAT_FALLBACK

/-- The observable outcome of one `/ask` call: the response, whether the
chat-completion call was made, the model chosen by the escalation decision
(line 246) and the model string actually passed to
`client.chat.completions.create` (line 251). -/
structure AskTrace where
  response : Response
  chatCalled : Bool
  modelDecided : String
  modelSent : String
deriving DecidableEq, Repr

/-- The `/ask` handler (lines 237–262).  `embedRes` is the outcome of the
embedding call made inside `cosine_search` (`.ok sims` gives the raw
similarity vector `EMB @ qv`; `.error e` means the call raised — note that
`cosine_search` runs *before* the `try` block).  `chatRes` is the outcome
of the chat-completion call. -/
def ask (embedRes : Except String (List ℚ)) (metas : List Meta)
    (chatRes : Except String String) : AskTrace :=
  match embedRes with
  | .error e => ⟨.unhandled e, false, "", ""⟩
  | .ok sims =>
    match cosine_search sims metas TOP_K with
    | [] => ⟨.ok FALLBACK_MSG [], false, "", ""⟩
    | (s0, m0) :: rankedRest =>
      let picks := ((s0, m0) :: rankedRest).map Prod.snd
      let best_sim := s0
      let decided := model_to_use best_sim
      match chatRes with
      | .error e =>
        ⟨.httpError 502 ("LLM xatosi: " ++ e), true, decided, OPENAI_CHAT_MODEL⟩
      | .ok raw =>
        ⟨.ok (strip_unwanted (pyStripStr raw)) (only_lex_sources picks 10),
          true, decided, OPENAI_CHAT_MODEL⟩

/-- Boolean check: the list of (score, record) pairs is in descending score
order (adjacent pairs; equivalent to pairwise for a total preorder). -/
def sortedDesc : List (ℚ × Meta) → Bool
  | [] => true
  | [_] => true
  | a :: b :: t => decide (b.1 ≤ a.1) && sortedDesc (b :: t)

/-- Boolean check: no element of the list occurs twice. -/
def nodupBool {α : Type} [DecidableEq α] : List α → Bool
  | [] => true
  | x :: rest => decide (x ∉ rest) && nodupBool rest

/-- Boolean check: every entry of `out` is the first element of `pool`
carrying its deduplication key. -/
def firstOccur (pool out : List (ℚ × Meta)) : Bool :=
  out.all (fun e =>
    decide (pool.find? (fun x => decide (entryKey x = entryKey e)) = some e))

/-- Boolean check: every raw similarity is below `MIN_SIM`. -/
def allBelowMin (sims : List ℚ) : Bool :=
  sims.all (fun s => decide (s < MIN_SIM))

/-- Boolean check: some candidate of the over-fetched pool clears
`MIN_SIM`. -/
def somePoolAboveMin (sims : List ℚ) (metas : List Meta) (top_n : ℕ) : Bool :=
  (poolOf sims metas top_n).any (fun e => decide (MIN_SIM ≤ e.1))

/-- The count `EMB.size`: the total number of scalar entries of the loaded embedding
array (lines 39 and 42; for an `(N, D)` array this is `N * D`). -/
def embSize (emb : List (List ℚ)) : ℕ :=
  (emb.map List.length).sum

/-- The startup index checks (lines 36–43): the process aborts
(`SystemExit`) iff one of the two index files is missing, the embedding
array has no entries, or the metadata list is empty.  `emb` is the loaded
array (one inner list per vector), `metas` the parsed records. -/
def startupAborts (embFileExists metaFileExists : Bool) (emb : List (List ℚ))
    (metas : List Meta) : Bool :=
  !embFileExists || !metaFileExists || decide (embSize emb = 0) || metas.isEmpty

/-- A concrete trailing "sources" block of the kind the model may append
despite instructions; its heading matches pattern 2 of `strip_unwanted`. -/
def sourcesBlock : String := "\nManbalar: lex.uz"

/-- The dot product `EMB[i] @ qv` of two stored/query vectors (line 75),
over the reals. -/
def rawDot (n : ℕ) (u v : Fin n → ℝ) : ℝ := ∑ i, u i * v i

/-- The norm `np.linalg.norm(X)` for a 1-D array (line 47). -/
noncomputable def l2norm (n : ℕ) (u : Fin n → ℝ) : ℝ :=
  Real.sqrt (∑ i, u i ^ 2)

/-- Function `_l2n` for a 1-D array (lines 45–48): `X / n if n > 0 else X`.  The
2-D branch (lines 49–51) applies the same map row by row with the same
zero-norm guard. -/
noncomputable def l2n (n : ℕ) (u : Fin n → ℝ) : Fin n → ℝ :=
  if 0 < l2norm n u then fun i => u i / l2norm n u else u

/-- C1: line 246 computes the escalation decision
(`model_to_use`), but line 251 passes `OPENAI_CHAT_MODEL` to the
completion call unconditionally.  At a request whose single retained
candidate scores `0.23` (below `ESCALATE_SIM = 0.30`), the decision picks
`CHAT_FALLBACK`, yet the model actually sent is `OPENAI_CHAT_MODEL`, and
the two differ. -/
theorem escalation_model_never_sent :
    (ask (.ok [23 / 100]) [⟨"", "", "", ""⟩] (.ok "javob")).modelDecided = CHAT_FALLBACK
      ∧ (ask (.ok [23 / 100]) [⟨"", "", "", ""⟩] (.ok "javob")).modelSent = OPENAI_CHAT_MODEL
      ∧ (ask (.ok [23 / 100]) [⟨"", "", "", ""⟩] (.ok "javob")).chatCalled = true
      ∧ OPENAI_CHAT_MODEL ≠ CHAT_FALLBACK := by
  with_unfolding_all decide

/-- C3: `has_edu_kw` lower-cases the record text but not the configured
keywords, so the upper-case keyword `"TTJ"` (likewise `"DS"`, `"DTM"`) can
never match any text: the chunk text `"TTJ"` contains the configured
keyword `"TTJ"` verbatim, yet `has_edu_kw` rejects it and the record gets
no keyword boost.  Matching is case-insensitive only with respect to the
text (e.g. `"MAKTAB"` matches the lower-case keyword `"maktab"`). -/
theorem edu_keyword_case_bug :
    EDU_KEYWORDS.contains "TTJ" = true
      ∧ has_edu_kw "TTJ" = false
      ∧ boost ⟨"", "", "TTJ", ""⟩ = 0
      ∧ has_edu_kw "MAKTAB tartibi" = true := by
  with_unfolding_all decide

/-- C4 counterexample: a failing embedding call (raised inside
`cosine_search`, which runs before the `try` block of lines 248–259)
escapes the handler unwrapped instead of becoming the 502 "LLM xatosi"
response. -/
theorem embed_failure_not_wrapped :
    (ask (.error "boom") [⟨"", "", "", ""⟩] (.ok "javob")).response
        = Response.unhandled "boom"
      ∧ (ask (.error "boom") [⟨"", "", "", ""⟩] (.ok "javob")).response
        ≠ Response.httpError 502 ("LLM xatosi: boom") := by
  decide

/-- C4 amended: only completion-call failures are wrapped into the 502
"LLM xatosi" response carrying the upstream message; an embedding-call
failure propagates out of the handler unwrapped. -/
theorem llm_error_wrapping_amended (sims : List ℚ) (metas : List Meta)
    (e msg : String) (chat : Except String String)
    (h : cosine_search sims metas TOP_K ≠ []) :
    (ask (.ok sims) metas (.error e)).response
        = Response.httpError 502 ("LLM xatosi: " ++ e)
      ∧ (ask (.error msg) metas chat).response = Response.unhandled msg := by
  constructor
  · unfold ask
    cases hc : cosine_search sims metas TOP_K with
    | nil => exact absurd hc h
    | cons a t => cases a; simp only [hc]
  · rfl

/-- Witness for `llm_error_wrapping_amended` at a concrete index and
failure messages. -/
theorem llm_error_wrapping_amended_witness :
    cosine_search [23 / 100] [⟨"", "", "", ""⟩] TOP_K ≠ []
      ∧ ((ask (.ok [23 / 100]) [⟨"", "", "", ""⟩] (.error "quota")).response
            = Response.httpError 502 ("LLM xatosi: " ++ "quota")
          ∧ (ask (.error "net") [⟨"", "", "", ""⟩] (.ok "x")).response
            = Response.unhandled "net") :=
  ⟨by with_unfolding_all decide,
   llm_error_wrapping_amended [23 / 100] [⟨"", "", "", ""⟩] "quota" "net" (.ok "x")
     (by with_unfolding_all decide)⟩

/-- C5 counterexample: both index files present, two embedding vectors but
only one metadata record — the counts disagree, yet startup does not
abort: the load performs no count-mismatch check. -/
theorem startup_ignores_count_mismatch :
    startupAborts true true [[1], [1]] [⟨"", "", "", ""⟩] = false
      ∧ ([[1], [1]] : List (List ℚ)).length ≠ ([(⟨"", "", "", ""⟩ : Meta)]).length := by
  with_unfolding_all decide

/-- C5 amended: startup aborts exactly when an index file is absent, the
embedding array has no entries, or the metadata list is empty; the number
of vectors is never compared with the number of records. -/
theorem startup_abort_characterization (embFileExists metaFileExists : Bool)
    (emb : List (List ℚ)) (metas : List Meta) :
    startupAborts embFileExists metaFileExists emb metas = true
      ↔ (embFileExists = false ∨ metaFileExists = false
          ∨ embSize emb = 0 ∨ metas = []) := by
  cases embFileExists <;> cases metaFileExists <;>
    simp [startupAborts, List.isEmpty_iff]

theorem dedupTake_sublist (k : ℕ) (l : List (ℚ × Meta)) :
    ∀ seen cnt, List.Sublist (dedupTake k seen cnt l) l := by
  induction l with
  | nil => intro seen cnt; simp [dedupTake]
  | cons a rest ih =>
    intro seen cnt
    rw [dedupTake]
    by_cases ha : entryKey a ∈ seen
    · rw [if_pos ha]
      exact (ih seen cnt).cons a
    · rw [if_neg ha]
      by_cases hk : k ≤ cnt + 1
      · rw [if_pos hk]
        exact (List.nil_sublist rest).cons₂ a
      · rw [if_neg hk]
        exact (ih _ _).cons₂ a

theorem dedupTake_length (k : ℕ) (l : List (ℚ × Meta)) :
    ∀ seen cnt, cnt < k → (dedupTake k seen cnt l).length ≤ k - cnt := by
  induction l with
  | nil => intro seen cnt h; simp [dedupTake]
  | cons a rest ih =>
    intro seen cnt h
    rw [dedupTake]
    by_cases ha : entryKey a ∈ seen
    · rw [if_pos ha]
      exact ih seen cnt h
    · rw [if_neg ha]
      by_cases hk : k ≤ cnt + 1
      · rw [if_pos hk]
        simp
        omega
      · rw [if_neg hk]
        have := ih (entryKey a :: seen) (cnt + 1) (by omega)
        simp only [List.length_cons]
        omega

theorem dedupTake_mem (k : ℕ) (l : List (ℚ × Meta)) :
    ∀ seen cnt e, e ∈ dedupTake k seen cnt l →
      entryKey e ∉ seen
        ∧ l.find? (fun x => decide (entryKey x = entryKey e)) = some e := by
  induction l with
  | nil => intro seen cnt e h; simp [dedupTake] at h
  | cons a rest ih =>
    intro seen cnt e h
    rw [dedupTake] at h
    by_cases ha : entryKey a ∈ seen
    · rw [if_pos ha] at h
      obtain ⟨hnot, hfind⟩ := ih seen cnt e h
      have hne : ¬ (entryKey a = entryKey e) := fun hh => hnot (hh ▸ ha)
      refine ⟨hnot, ?_⟩
      rw [List.find?_cons_of_neg, hfind]
      simp [hne]
    · rw [if_neg ha] at h
      by_cases hk : k ≤ cnt + 1
      · rw [if_pos hk] at h
        have he : e = a := by simpa using h
        subst he
        exact ⟨ha, by rw [List.find?_cons_of_pos]; simp⟩
      · rw [if_neg hk] at h
        rcases List.mem_cons.mp h with he | he
        · subst he
          exact ⟨ha, by rw [List.find?_cons_of_pos]; simp⟩
        · obtain ⟨hnot, hfind⟩ := ih _ _ e he
          have hea : ¬ (entryKey e = entryKey a) := fun hh => hnot (by simp [hh])
          have hsn : entryKey e ∉ seen := fun hh => hnot (by simp [hh])
          refine ⟨hsn, ?_⟩
          rw [List.find?_cons_of_neg, hfind]
          simp
          exact fun hh => hea hh.symm

theorem dedupTake_nodupKeys (k : ℕ) (l : List (ℚ × Meta)) :
    ∀ seen cnt, nodupBool ((dedupTake k seen cnt l).map entryKey) = true := by
  induction l with
  | nil => intro seen cnt; simp [dedupTake, nodupBool]
  | cons a rest ih =>
    intro seen cnt
    rw [dedupTake]
    by_cases ha : entryKey a ∈ seen
    · rw [if_pos ha]; exact ih seen cnt
    · rw [if_neg ha]
      by_cases hk : k ≤ cnt + 1
      · rw [if_pos hk]; simp [nodupBool]
      · rw [if_neg hk]
        simp only [List.map_cons, nodupBool, Bool.and_eq_true, decide_eq_true_eq]
        refine ⟨?_, ih _ _⟩
        intro hmem
        obtain ⟨e, hmem2, hkeq⟩ := List.mem_map.mp hmem
        obtain ⟨hnot, _⟩ := dedupTake_mem k rest _ _ e hmem2
        exact hnot (by simp [hkeq])

theorem sortedDesc_of_pairwise (l : List (ℚ × Meta))
    (h : l.Pairwise scoreGe) : sortedDesc l = true := by
  induction l with
  | nil => rfl
  | cons a rest ih =>
    cases rest with
    | nil => rfl
    | cons b t =>
      rw [List.pairwise_cons] at h
      obtain ⟨hab, hrest⟩ := h
      rw [sortedDesc, Bool.and_eq_true, decide_eq_true_eq]
      exact ⟨hab b (by simp), ih hrest⟩

theorem rankedPool_pairwise (sims : List ℚ) (metas : List Meta) (k : ℕ) :
    (rankedPool sims metas k).Pairwise scoreGe := by
  rw [rankedPool]
  exact List.sorted_insertionSort scoreGe _

theorem mem_poolOf_sim (sims : List ℚ) (metas : List Meta) (k : ℕ)
    (e : ℚ × Meta) (h : e ∈ poolOf sims metas k) : e.1 ∈ sims := by
  rw [poolOf] at h
  have h2 : e ∈ List.insertionSort scoreGe (sims.zip metas) :=
    (List.take_sublist _ _).mem h
  have h3 : e ∈ sims.zip metas :=
    (List.perm_insertionSort scoreGe (sims.zip metas)).mem_iff.mp h2
  obtain ⟨a, b⟩ := e
  exact (List.of_mem_zip h3).1

theorem filterMap_nil_of_none {α β : Type} (f : α → Option β) (l : List α)
    (h : ∀ a ∈ l, f a = none) : l.filterMap f = [] := by
  induction l with
  | nil => rfl
  | cons a rest ih =>
    rw [List.filterMap_cons, h a (by simp)]
    exact ih (fun x hx => h x (by simp [hx]))

theorem rankedPool_nil_of_below (sims : List ℚ) (metas : List Meta) (k : ℕ)
    (h : allBelowMin sims = true) : rankedPool sims metas k = [] := by
  rw [rankedPool]
  have hnil : (poolOf sims metas k).filterMap
      (fun e => if e.1 < MIN_SIM then none else some (e.1 + boost e.2, e.2)) = [] := by
    refine filterMap_nil_of_none _ _ (fun e he => ?_)
    have hs : e.1 ∈ sims := mem_poolOf_sim sims metas k e he
    have hlt : e.1 < MIN_SIM := by
      rw [allBelowMin, List.all_eq_true] at h
      simpa using h e.1 hs
    rw [if_pos hlt]
  rw [hnil]
  rfl

/-- C7: when every raw similarity is below `MIN_SIM`, `cosine_search`
returns the empty list, and the `/ask` handler answers with the fixed
"try rephrasing" message, an empty sources list, and no completion call. -/
theorem below_threshold_fallback (sims : List ℚ) (metas : List Meta)
    (chat : Except String String) (h : allBelowMin sims = true) :
    cosine_search sims metas TOP_K = []
      ∧ ask (.ok sims) metas chat
        = ⟨Response.ok FALLBACK_MSG [], false, "", ""⟩ := by
  have hnil : cosine_search sims metas TOP_K = [] := by
    rw [cosine_search, rankedPool_nil_of_below sims metas TOP_K h]
    rfl
  refine ⟨hnil, ?_⟩
  unfold ask
  simp only [hnil]

/-- Witness for `below_threshold_fallback`: a two-record index whose raw
similarities `0.1` and `0.21` both miss the `0.22` threshold. -/
theorem below_threshold_fallback_witness :
    allBelowMin [1 / 10, 21 / 100] = true
      ∧ (cosine_search [1 / 10, 21 / 100]
            [⟨"https://lex.uz/d/1", "A", "", ""⟩, ⟨"https://lex.uz/d/2", "B", "", ""⟩] TOP_K = []
          ∧ ask (.ok [1 / 10, 21 / 100])
              [⟨"https://lex.uz/d/1", "A", "", ""⟩, ⟨"https://lex.uz/d/2", "B", "", ""⟩]
              (.ok "javob")
            = ⟨Response.ok FALLBACK_MSG [], false, "", ""⟩) :=
  ⟨by with_unfolding_all decide,
   below_threshold_fallback [1 / 10, 21 / 100]
     [⟨"https://lex.uz/d/1", "A", "", ""⟩, ⟨"https://lex.uz/d/2", "B", "", ""⟩]
     (.ok "javob") (by with_unfolding_all decide)⟩

theorem dedupTake_ne_nil (k cnt : ℕ) (l : List (ℚ × Meta)) (h : l ≠ []) :
    dedupTake k [] cnt l ≠ [] := by
  cases l with
  | nil => exact absurd rfl h
  | cons e rest =>
    rw [dedupTake, if_neg (by simp)]
    by_cases hk : k ≤ cnt + 1
    · rw [if_pos hk]; simp
    · rw [if_neg hk]; simp

theorem rankedPool_ne_nil (sims : List ℚ) (metas : List Meta) (k : ℕ)
    (h : somePoolAboveMin sims metas k = true) : rankedPool sims metas k ≠ [] := by
  rw [somePoolAboveMin, List.any_eq_true] at h
  obtain ⟨e, he, hge⟩ := h
  rw [decide_eq_true_eq] at hge
  have hmem : (e.1 + boost e.2, e.2) ∈ (poolOf sims metas k).filterMap
      (fun x => if x.1 < MIN_SIM then none else some (x.1 + boost x.2, x.2)) := by
    rw [List.mem_filterMap]
    exact ⟨e, he, by rw [if_neg (not_lt.mpr hge)]⟩
  intro hnil
  rw [rankedPool] at hnil
  have := (List.perm_insertionSort scoreGe
    ((poolOf sims metas k).filterMap
      (fun x => if x.1 < MIN_SIM then none else some (x.1 + boost x.2, x.2)))).symm.mem_iff.mp hmem
  rw [hnil] at this
  simp at this

/-- C2: with `K ≥ 1` and at least one over-fetched candidate clearing
`MIN_SIM`, `cosine_search` returns a non-empty list of at most `K`
(score, record) pairs, sorted descending by adjusted score, whose
deduplication keys `(doc_url, doc_title)` are pairwise distinct, and each
returned entry is the first (hence highest-scoring) entry with its key in
the boosted, re-sorted candidate list. -/
theorem cosine_search_topk_sorted_dedup (sims : List ℚ) (metas : List Meta)
    (k : ℕ) (hk : 1 ≤ k) (hpool : somePoolAboveMin sims metas k = true) :
    cosine_search sims metas k ≠ []
      ∧ (cosine_search sims metas k).length ≤ k
      ∧ sortedDesc (cosine_search sims metas k) = true
      ∧ nodupBool ((cosine_search sims metas k).map entryKey) = true
      ∧ firstOccur (rankedPool sims metas k) (cosine_search sims metas k) = true := by
  refine ⟨?_, ?_, ?_, ?_, ?_⟩
  · rw [cosine_search]
    exact dedupTake_ne_nil k 0 _ (rankedPool_ne_nil sims metas k hpool)
  · have := dedupTake_length k (rankedPool sims metas k) [] 0 (by omega)
    simpa [cosine_search] using this
  · refine sortedDesc_of_pairwise _ ?_
    have hp := rankedPool_pairwise sims metas k
    exact hp.sublist (dedupTake_sublist k (rankedPool sims metas k) [] 0)
  · exact dedupTake_nodupKeys k (rankedPool sims metas k) [] 0
  · rw [firstOccur, List.all_eq_true]
    intro e he
    rw [decide_eq_true_eq]
    exact (dedupTake_mem k (rankedPool sims metas k) [] 0 e he).2

/-- Witness for `cosine_search_topk_sorted_dedup`: `K = 2` over a
three-record index (two records share the dedup key). -/
theorem cosine_search_topk_sorted_dedup_witness :
    1 ≤ 2
      ∧ somePoolAboveMin [23 / 100, 40 / 100, 25 / 100]
          [⟨"https://lex.uz/d/1", "T", "", ""⟩, ⟨"https://lex.uz/d/1", "T", "", ""⟩,
            ⟨"https://lex.uz/d/2", "U", "", ""⟩] 2 = true
      ∧ (cosine_search [23 / 100, 40 / 100, 25 / 100]
            [⟨"https://lex.uz/d/1", "T", "", ""⟩, ⟨"https://lex.uz/d/1", "T", "", ""⟩,
              ⟨"https://lex.uz/d/2", "U", "", ""⟩] 2 ≠ []
          ∧ (cosine_search [23 / 100, 40 / 100, 25 / 100]
              [⟨"https://lex.uz/d/1", "T", "", ""⟩, ⟨"https://lex.uz/d/1", "T", "", ""⟩,
                ⟨"https://lex.uz/d/2", "U", "", ""⟩] 2).length ≤ 2
          ∧ sortedDesc (cosine_search [23 / 100, 40 / 100, 25 / 100]
              [⟨"https://lex.uz/d/1", "T", "", ""⟩, ⟨"https://lex.uz/d/1", "T", "", ""⟩,
                ⟨"https://lex.uz/d/2", "U", "", ""⟩] 2) = true
          ∧ nodupBool ((cosine_search [23 / 100, 40 / 100, 25 / 100]
              [⟨"https://lex.uz/d/1", "T", "", ""⟩, ⟨"https://lex.uz/d/1", "T", "", ""⟩,
                ⟨"https://lex.uz/d/2", "U", "", ""⟩] 2).map entryKey) = true
          ∧ firstOccur (rankedPool [23 / 100, 40 / 100, 25 / 100]
              [⟨"https://lex.uz/d/1", "T", "", ""⟩, ⟨"https://lex.uz/d/1", "T", "", ""⟩,
                ⟨"https://lex.uz/d/2", "U", "", ""⟩] 2)
              (cosine_search [23 / 100, 40 / 100, 25 / 100]
                [⟨"https://lex.uz/d/1", "T", "", ""⟩, ⟨"https://lex.uz/d/1", "T", "", ""⟩,
                  ⟨"https://lex.uz/d/2", "U", "", ""⟩] 2) = true) :=
  ⟨by omega,
   by with_unfolding_all decide,
   cosine_search_topk_sorted_dedup [23 / 100, 40 / 100, 25 / 100]
     [⟨"https://lex.uz/d/1", "T", "", ""⟩, ⟨"https://lex.uz/d/1", "T", "", ""⟩,
       ⟨"https://lex.uz/d/2", "U", "", ""⟩] 2 (by omega)
     (by with_unfolding_all decide)⟩

theorem lexLoop_mem (maxL : ℕ) (l : List Meta) :
    ∀ seen cnt c, c ∈ lexSourcesLoop maxL seen cnt l →
      isLexUrl c.url = true ∧ c.title = c.url ∧ c.url ∉ seen := by
  induction l with
  | nil => intro seen cnt c h; simp [lexSourcesLoop] at h
  | cons m rest ih =>
    intro seen cnt c h
    rw [lexSourcesLoop] at h
    by_cases h0 : pyStripStr m.doc_url = ""
    · rw [if_pos h0] at h; exact ih seen cnt c h
    · rw [if_neg h0] at h
      by_cases h1 : isLexUrl (pyStripStr m.doc_url) = true
      · rw [if_neg (by simp [h1])] at h
        by_cases h2 : pyStripStr m.doc_url ∈ seen
        · rw [if_pos h2] at h; exact ih seen cnt c h
        · rw [if_neg h2] at h
          by_cases h3 : maxL ≤ cnt + 1
          · rw [if_pos h3] at h
            have hc : c = ⟨pyStripStr m.doc_url, pyStripStr m.doc_url⟩ := by
              simpa using h
            subst hc
            exact ⟨h1, rfl, h2⟩
          · rw [if_neg h3] at h
            rcases List.mem_cons.mp h with hc | hc
            · subst hc
              exact ⟨h1, rfl, h2⟩
            · obtain ⟨ha, hb, hn⟩ := ih _ _ c hc
              exact ⟨ha, hb, fun hs => hn (by simp [hs])⟩
      · rw [if_pos (by simpa using h1)] at h
        exact ih seen cnt c h

theorem lexLoop_length (maxL : ℕ) (l : List Meta) :
    ∀ seen cnt, cnt < maxL → (lexSourcesLoop maxL seen cnt l).length ≤ maxL - cnt := by
  induction l with
  | nil => intro seen cnt h; simp [lexSourcesLoop]
  | cons m rest ih =>
    intro seen cnt h
    rw [lexSourcesLoop]
    by_cases h0 : pyStripStr m.doc_url = ""
    · rw [if_pos h0]; exact ih seen cnt h
    · rw [if_neg h0]
      by_cases h1 : isLexUrl (pyStripStr m.doc_url) = true
      · rw [if_neg (by simp [h1])]
        by_cases h2 : pyStripStr m.doc_url ∈ seen
        · rw [if_pos h2]; exact ih seen cnt h
        · rw [if_neg h2]
          by_cases h3 : maxL ≤ cnt + 1
          · rw [if_pos h3]; simp; omega
          · rw [if_neg h3]
            have := ih (pyStripStr m.doc_url :: seen) (cnt + 1) (by omega)
            simp only [List.length_cons]
            omega
      · rw [if_pos (by simpa using h1)]
        exact ih seen cnt h

theorem lexLoop_nodup (maxL : ℕ) (l : List Meta) :
    ∀ seen cnt, nodupBool ((lexSourcesLoop maxL seen cnt l).map Citation.url) = true := by
  induction l with
  | nil => intro seen cnt; simp [lexSourcesLoop, nodupBool]
  | cons m rest ih =>
    intro seen cnt
    rw [lexSourcesLoop]
    by_cases h0 : pyStripStr m.doc_url = ""
    · rw [if_pos h0]; exact ih seen cnt
    · rw [if_neg h0]
      by_cases h1 : isLexUrl (pyStripStr m.doc_url) = true
      · rw [if_neg (by simp [h1])]
        by_cases h2 : pyStripStr m.doc_url ∈ seen
        · rw [if_pos h2]; exact ih seen cnt
        · rw [if_neg h2]
          by_cases h3 : maxL ≤ cnt + 1
          · rw [if_pos h3]; simp [nodupBool]
          · rw [if_neg h3]
            simp only [List.map_cons, nodupBool, Bool.and_eq_true, decide_eq_true_eq]
            refine ⟨?_, ih _ _⟩
            intro hmem
            obtain ⟨c, hmem2, hkeq⟩ := List.mem_map.mp hmem
            obtain ⟨_, _, hn⟩ := lexLoop_mem maxL rest _ _ c hmem2
            exact hn (by simp [hkeq])
      · rw [if_pos (by simpa using h1)]
        exact ih seen cnt

/-- C8: for every input list of records, every citation returned by
`only_lex_sources` has a URL starting with `https://lex.uz` or
`http://lex.uz`, no two returned citations share a URL, and at most 10
citations are returned. -/
theorem only_lex_sources_sound (picks : List Meta) :
    (only_lex_sources picks 10).all (fun c => isLexUrl c.url) = true
      ∧ nodupBool ((only_lex_sources picks 10).map Citation.url) = true
      ∧ (only_lex_sources picks 10).length ≤ 10 := by
  refine ⟨?_, ?_, ?_⟩
  · rw [List.all_eq_true]
    intro c hc
    exact (lexLoop_mem 10 picks [] 0 c hc).1
  · exact lexLoop_nodup 10 picks [] 0
  · simpa using lexLoop_length 10 picks [] 0 (by omega)

/-- C10: every citation built by `only_lex_sources` duplicates the URL
into the title slot (`{"title": u, "url": u}`, line 150); the record
title `doc_title` is never used. -/
theorem citation_title_eq_url (picks : List Meta) :
    (only_lex_sources picks 10).all (fun c => decide (c.title = c.url)) = true := by
  rw [List.all_eq_true]
  intro c hc
  rw [decide_eq_true_eq]
  exact (lexLoop_mem 10 picks [] 0 c hc).2.1

theorem removeTail_id (p : List Char → Bool) (l : List Char)
    (h : anyMatch p l = false) : removeTail p l = l := by
  induction l with
  | nil => rfl
  | cons c t ih =>
    rw [anyMatch, Bool.or_eq_false_iff] at h
    rw [removeTail, if_neg (by simp [h.1])]
    rw [ih h.2]

theorem ciMatches_append_nl (pat : List Char)
    (hpat : pat.all (fun c => decide (c ≠ '\n')) = true) :
    ∀ d bs, ciMatches pat (d ++ '\n' :: bs) = ciMatches pat d := by
  induction pat with
  | nil => intro d bs; rfl
  | cons p ps ih =>
    intro d bs
    rw [List.all_cons, Bool.and_eq_true, decide_eq_true_eq] at hpat
    cases d with
    | nil =>
      have : pyLowerChar '\n' = '\n' := rfl
      simp [ciMatches, this, hpat.1, Ne.symm hpat.1]
    | cons c cs =>
      rw [List.cons_append, ciMatches, ciMatches, ih hpat.2 cs bs]

theorem ciMatches_length (pat : List Char) :
    ∀ d, ciMatches pat d = true → pat.length ≤ d.length := by
  induction pat with
  | nil => intro d _; simp
  | cons p ps ih =>
    intro d h
    cases d with
    | nil => simp [ciMatches] at h
    | cons c cs =>
      rw [ciMatches, Bool.and_eq_true] at h
      have := ih cs h.2
      simp only [List.length_cons]
      omega

theorem dropWhile_append_nil {α : Type} (p : α → Bool) (l x : List α)
    (h : l.dropWhile p = []) : (l ++ x).dropWhile p = x.dropWhile p := by
  induction l with
  | nil => rfl
  | cons a t ih =>
    rw [List.dropWhile_cons] at h
    by_cases hp : p a = true
    · rw [if_pos hp] at h
      rw [List.cons_append, List.dropWhile_cons, if_pos hp]
      exact ih h
    · rw [if_neg hp] at h
      exact absurd h (by simp)

theorem dropWhile_append_cons {α : Type} (p : α → Bool) (l x : List α)
    (c : α) (cs : List α) (h : l.dropWhile p = c :: cs) :
    (l ++ x).dropWhile p = c :: (cs ++ x) := by
  induction l with
  | nil => simp at h
  | cons a t ih =>
    rw [List.dropWhile_cons] at h
    by_cases hp : p a = true
    · rw [if_pos hp] at h
      rw [List.cons_append, List.dropWhile_cons, if_pos hp]
      exact ih h
    · rw [if_neg hp] at h
      obtain ⟨rfl, rfl⟩ : a = c ∧ t = cs := by
        constructor <;> [exact (List.cons.injEq .. ▸ h).1; exact (List.cons.injEq .. ▸ h).2]
      rw [List.cons_append, List.dropWhile_cons, if_neg hp]

theorem afterLabel1_append (t bs : List Char) :
    afterLabel1 (t ++ '\n' :: bs) = afterLabel1 t := by
  have hpat2 : (yichaChars).all (fun c => decide (c ≠ '\n')) = true := by decide
  cases t with
  | nil =>
    have h0 : ciMatches yichaChars ('\n' :: bs) = false := by
      have h1 := ciMatches_append_nl _ hpat2 [] bs
      simpa using h1
    rw [List.nil_append]
    simp [afterLabel1, show isApos '\n' = false from rfl, h0]
  | cons c0 r =>
    rw [List.cons_append, afterLabel1, afterLabel1]
    by_cases ha : isApos c0 = true
    · rw [if_pos ha, if_pos ha, ciMatches_append_nl _ hpat2 r bs]
    · rw [if_neg ha, if_neg ha]
      have := ciMatches_append_nl _ hpat2 (c0 :: r) bs
      rw [List.cons_append] at this
      exact this

theorem matchLabel1_append (d bs : List Char) :
    matchLabel1 (d ++ '\n' :: bs) = matchLabel1 d := by
  have hpat1 : (['m', 'a', 'n', 'b', 'a', 'l', 'a', 'r', ' ', 'b', 'o'] : List Char).all
      (fun c => decide (c ≠ '\n')) = true := by decide
  rw [matchLabel1, matchLabel1, ciMatches_append_nl _ hpat1 d bs]
  cases hc : ciMatches ['m', 'a', 'n', 'b', 'a', 'l', 'a', 'r', ' ', 'b', 'o'] d with
  | false => simp
  | true =>
    have hlen : 11 ≤ d.length := ciMatches_length _ d hc
    rw [List.drop_append_of_le_length hlen, afterLabel1_append]

theorem colonAfterSpaces_append (r bs : List Char) :
    colonAfterSpaces (r ++ '\n' :: 'M' :: bs) = colonAfterSpaces r := by
  rw [colonAfterSpaces, colonAfterSpaces]
  cases hr : r.dropWhile isPySpace with
  | nil =>
    rw [dropWhile_append_nil _ _ _ hr]
    have hM : ('\n' :: 'M' :: bs).dropWhile isPySpace = 'M' :: bs := by
      rw [List.dropWhile_cons, if_pos (by decide), List.dropWhile_cons,
        if_neg (by decide)]
    rw [hM]
    simp
  | cons c0 cs =>
    rw [dropWhile_append_cons _ _ _ _ _ hr]

theorem matchLabel2_append (d bs : List Char) :
    matchLabel2 (d ++ '\n' :: 'M' :: bs) = matchLabel2 d := by
  have hpat : (['m', 'a', 'n', 'b', 'a', 'l', 'a', 'r'] : List Char).all
      (fun c => decide (c ≠ '\n')) = true := by decide
  rw [matchLabel2, matchLabel2]
  have h1 : ciMatches ['m', 'a', 'n', 'b', 'a', 'l', 'a', 'r'] (d ++ '\n' :: 'M' :: bs)
      = ciMatches ['m', 'a', 'n', 'b', 'a', 'l', 'a', 'r'] d :=
    ciMatches_append_nl _ hpat d ('M' :: bs)
  rw [h1]
  cases hc : ciMatches ['m', 'a', 'n', 'b', 'a', 'l', 'a', 'r'] d with
  | false => simp
  | true =>
    have hlen : 8 ≤ d.length := ciMatches_length _ d hc
    rw [List.drop_append_of_le_length hlen, colonAfterSpaces_append]

theorem dropWhile_nl_append (t B : List Char) (ht : t ≠ [])
    (hlast : t.getLast? ≠ some '\n') :
    (t ++ B).dropWhile (fun d => d = '\n')
      = t.dropWhile (fun d => d = '\n') ++ B := by
  cases hd : t.dropWhile (fun d => d = '\n') with
  | nil =>
    exfalso
    rw [List.dropWhile_eq_nil_iff] at hd
    have hmem := List.getLast_mem ht
    have : (t.getLast ht : Char) = '\n' := by
      have := hd _ hmem
      simpa using this
    rw [List.getLast?_eq_getLast t ht, this] at hlast
    exact hlast rfl
  | cons c0 cs =>
    rw [dropWhile_append_cons _ _ _ _ _ hd, List.cons_append]

theorem patMatchAt_append (label : List Char → Bool) (btail : List Char)
    (Hl : ∀ d : List Char, label (d ++ '\n' :: btail) = label d)
    (c : Char) (t : List Char) (hlast : (c :: t).getLast? ≠ some '\n') :
    patMatchAt label ((c :: t) ++ ('\n' :: btail)) = patMatchAt label (c :: t) := by
  rw [List.cons_append, patMatchAt, patMatchAt]
  by_cases hc : c = '\n'
  · subst hc
    have ht : t ≠ [] := by
      intro h
      subst h
      simp at hlast
    have hlt : t.getLast? ≠ some '\n' := by
      cases t with
      | nil => simp
      | cons t0 t1 => rw [List.getLast?_cons_cons] at hlast; exact hlast
    rw [dropWhile_nl_append t ('\n' :: btail) ht hlt]
    have := Hl (t.dropWhile (fun d => d = '\n'))
    rw [this]
  · simp [hc]

theorem removeTail_append (p : List Char → Bool) (B : List Char)
    (Hp : ∀ (c : Char) (t : List Char), (c :: t).getLast? ≠ some '\n' →
      p ((c :: t) ++ B) = p (c :: t)) :
    ∀ L : List Char, anyMatch p L = false → L.getLast? ≠ some '\n' →
      removeTail p (L ++ B) = L ++ removeTail p B := by
  intro L
  induction L with
  | nil => intro _ _; rfl
  | cons c t ih =>
    intro hA hL
    rw [anyMatch, Bool.or_eq_false_iff] at hA
    have h1 : p ((c :: t) ++ B) = p (c :: t) := Hp c t hL
    rw [List.cons_append] at h1
    rw [List.cons_append, removeTail, h1, hA.1, if_neg (by simp), List.cons_append]
    congr 1
    refine ih hA.2 ?_
    cases t with
    | nil => simp
    | cons t0 t1 => rw [List.getLast?_cons_cons] at hL; exact hL

theorem hasPat_split (s : String) (h : hasPat s = false) :
    anyMatch (patMatchAt matchLabel1) s.toList = false
      ∧ anyMatch (patMatchAt matchLabel2) s.toList = false := by
  rw [hasPat, Bool.or_eq_false_iff] at h
  exact h

/-- C6 counterexample: an input containing none of the recognized
"sources" patterns but carrying a trailing space is changed by
`strip_unwanted` (the function ends with `.strip()`, line 136), so the
sanitizer is not a no-op on pattern-free text. -/
theorem strip_unwanted_not_noop :
    hasPat "salom " = false ∧ strip_unwanted "salom " ≠ "salom " := by
  decide

/-- C6 amended: on text containing no recognized "sources" pattern,
`strip_unwanted` returns the text with surrounding whitespace stripped
(hence unchanged exactly when the text has no such whitespace); appending
a trailing sources block such as `"\nManbalar: lex.uz"` to such a text
(one not itself ending in a newline) yields the same stripped text — the
appended block is removed. -/
theorem strip_unwanted_amended (s : String) (h1 : hasPat s = false)
    (h2 : s.toList.getLast? ≠ some '\n') :
    strip_unwanted s = pyStripStr s
      ∧ strip_unwanted (s ++ sourcesBlock) = pyStripStr s := by
  obtain ⟨ha1, ha2⟩ := hasPat_split s h1
  constructor
  · rw [strip_unwanted, removeTail_id _ _ ha1, removeTail_id _ _ ha2]
    rfl
  · have hBtl : (s ++ sourcesBlock).toList
        = s.toList ++ ('\n' :: "Manbalar: lex.uz".toList) := by
      rw [show (s ++ sourcesBlock).toList = s.toList ++ sourcesBlock.toList by
        simp [String.toList]]
      rfl
    rw [strip_unwanted, hBtl]
    have Hp1 : ∀ (c : Char) (t : List Char), (c :: t).getLast? ≠ some '\n' →
        patMatchAt matchLabel1 ((c :: t) ++ ('\n' :: "Manbalar: lex.uz".toList))
          = patMatchAt matchLabel1 (c :: t) :=
      patMatchAt_append matchLabel1 "Manbalar: lex.uz".toList
        (fun d => matchLabel1_append d "Manbalar: lex.uz".toList)
    have Hl2 : ∀ d : List Char,
        matchLabel2 (d ++ '\n' :: "Manbalar: lex.uz".toList) = matchLabel2 d := by
      intro d
      have := matchLabel2_append d "anbalar: lex.uz".toList
      simpa using this
    have Hp2 : ∀ (c : Char) (t : List Char), (c :: t).getLast? ≠ some '\n' →
        patMatchAt matchLabel2 ((c :: t) ++ ('\n' :: "Manbalar: lex.uz".toList))
          = patMatchAt matchLabel2 (c :: t) :=
      patMatchAt_append matchLabel2 "Manbalar: lex.uz".toList Hl2
    rw [removeTail_append _ _ Hp1 s.toList ha1 h2]
    have hB1 : removeTail (patMatchAt matchLabel1) ('\n' :: "Manbalar: lex.uz".toList)
        = '\n' :: "Manbalar: lex.uz".toList := by decide
    rw [hB1]
    rw [removeTail_append _ _ Hp2 s.toList ha2 h2]
    have hB2 : removeTail (patMatchAt matchLabel2) ('\n' :: "Manbalar: lex.uz".toList)
        = [] := by decide
    rw [hB2, List.append_nil]
    rfl

/-- Witness for `strip_unwanted_amended` on a concrete pattern-free
answer text. -/
theorem strip_unwanted_amended_witness :
    hasPat "Salom dunyo" = false
      ∧ ("Salom dunyo" : String).toList.getLast? ≠ some '\n'
      ∧ (strip_unwanted "Salom dunyo" = pyStripStr "Salom dunyo"
          ∧ strip_unwanted ("Salom dunyo" ++ sourcesBlock) = pyStripStr "Salom dunyo") :=
  ⟨by decide, by decide, strip_unwanted_amended "Salom dunyo" (by decide) (by decide)⟩

theorem l2n_sq_sum_le_one (n : ℕ) (u : Fin n → ℝ) :
    ∑ i, (l2n n u i) ^ 2 ≤ 1 := by
  have hS : (0 : ℝ) ≤ ∑ i, u i ^ 2 :=
    Finset.sum_nonneg (fun i _ => sq_nonneg (u i))
  by_cases h : 0 < l2norm n u
  · rw [l2n, if_pos h]
    have hSpos : (0 : ℝ) < ∑ i, u i ^ 2 := by
      rw [l2norm] at h
      exact Real.sqrt_pos.mp h
    have hsq : l2norm n u ^ 2 = ∑ i, u i ^ 2 := by
      rw [l2norm]
      exact Real.sq_sqrt hS
    have hdiv : ∑ i, (u i / l2norm n u) ^ 2 = (∑ i, u i ^ 2) / l2norm n u ^ 2 := by
      have h1 : ∀ i : Fin n, (u i / l2norm n u) ^ 2 = u i ^ 2 / l2norm n u ^ 2 :=
        fun i => div_pow (u i) (l2norm n u) 2
      simp only [h1]
      rw [← Finset.sum_div]
    rw [hdiv, hsq, div_self (ne_of_gt hSpos)]
  · rw [l2n, if_neg h]
    have hz : l2norm n u = 0 :=
      le_antisymm (not_lt.mp h) (by rw [l2norm]; exact Real.sqrt_nonneg _)
    have hS0 : ∑ i, u i ^ 2 = 0 := by
      rw [l2norm] at hz
      have := Real.sqrt_eq_zero hS
      exact this.mp hz
    rw [hS0]
    norm_num

/-- C9: the raw similarity of two `_l2n`-normalized vectors (the dot
product computed at line 75) lies in the interval `[-1, 1]` — each
normalized factor has squared norm at most 1 (exactly 1 unless the vector
is zero, in which case `_l2n` leaves it unchanged), and Cauchy–Schwarz
bounds the product; boosted scores, in contrast, can exceed 1. -/
theorem raw_similarity_in_icc (n : ℕ) (u v : Fin n → ℝ) :
    rawDot n (l2n n u) (l2n n v) ∈ Set.Icc (-1 : ℝ) 1
      ∧ ∃ m : Meta, (1 : ℚ) < 1 + boost m := by
  constructor
  · have hcs := Finset.sum_mul_sq_le_sq_mul_sq Finset.univ (l2n n u) (l2n n v)
    have hu := l2n_sq_sum_le_one n u
    have hv := l2n_sq_sum_le_one n v
    have hunn : (0 : ℝ) ≤ ∑ i, (l2n n u i) ^ 2 :=
      Finset.sum_nonneg (fun i _ => sq_nonneg _)
    have hvnn : (0 : ℝ) ≤ ∑ i, (l2n n v i) ^ 2 :=
      Finset.sum_nonneg (fun i _ => sq_nonneg _)
    have hsq : rawDot n (l2n n u) (l2n n v) ^ 2 ≤ 1 := by
      rw [rawDot]
      calc (∑ i, l2n n u i * l2n n v i) ^ 2
          ≤ (∑ i, (l2n n u i) ^ 2) * ∑ i, (l2n n v i) ^ 2 := hcs
        _ ≤ 1 * 1 := mul_le_mul hu hv hvnn (le_trans hunn hu)
        _ = 1 := one_mul 1
    have habs : |rawDot n (l2n n u) (l2n n v)| ≤ 1 :=
      (sq_le_one_iff_abs_le_one _).mp hsq
    rw [Set.mem_Icc]
    exact abs_le.mp habs
  · refine ⟨⟨"https://lex.uz/d/1", "", "", ""⟩, ?_⟩
    have hb : boost ⟨"https://lex.uz/d/1", "", "", ""⟩ = 8 / 100 := by
      with_unfolding_all decide
    rw [hb]
    norm_num
